import Mathlib

/-!
Verification of the BIP0038 (non-EC-multiply) encrypt/decrypt core of
`steembase/bip38.py`, shallowly embedded over byte lists (`List Nat`,
each byte `< 256`).

The cryptographic collaborators (SHA-256, the scrypt key-derivation
backend, the AES-256-ECB block cipher, and the private-key → address
derivation from `steembase.account`) are external to the file under
analysis; they are abstracted as the fields of a `Primitives` structure
together with the interface contracts the spec states for them (output
lengths, byte ranges, and the block-cipher inverse law).  The Base58 /
hexlify framing is the identity on the underlying byte sequences, so
`encrypt` here returns the raw `payload ++ checksum` bytes and `decrypt`
consumes them.
-/

namespace Bip38

/-- Value of a big-endian byte list, as computed by Python's
`int(hexlify(b), 16)`. -/
def bytesToNat (l : List Nat) : Nat :=
  l.foldl (fun acc b => acc * 256 + b) 0

/-- Big-endian bytes of `n`, zero-padded on the left to `len` bytes, as
computed by Python's `unhexlify('%0.<2*len>x' % n)` (exact whenever
`n < 256 ^ len`, which holds at every use site below). -/
def natToBytes : Nat → Nat → List Nat
  | 0, _ => []
  | len + 1, n => natToBytes len (n / 256) ++ [n % 256]

/-- Interface of the external cryptographic collaborators used by
`bip38.py`, with the contracts the spec assigns to them.  `scryptCore`
takes (passphrase, salt, N, r, p); `address` is the ASCII byte sequence
of the base58 "BTC"-formatted address derived from a 32-byte private
key (modelled from the spec: address derivation is an external
collaborator, a deterministic function of the private key). -/
structure Primitives where
  sha256 : List Nat → List Nat
  scryptCore : List Nat → List Nat → Nat → Nat → Nat → List Nat
  aesEnc : List Nat → List Nat → List Nat
  aesDec : List Nat → List Nat → List Nat
  address : List Nat → List Nat
  sha256_length : ∀ x, (sha256 x).length = 32
  scrypt_length : ∀ pa s N r p, (scryptCore pa s N r p).length = 64
  scrypt_bytes : ∀ pa s N r p, ∀ b ∈ scryptCore pa s N r p, b < 256
  aesEnc_length : ∀ k b, b.length = 16 → (aesEnc k b).length = 16
  aesDec_length : ∀ k b, b.length = 16 → (aesDec k b).length = 16
  aesDec_bytes : ∀ k b, ∀ y ∈ aesDec k b, y < 256
  aes_inverse : ∀ k b, b.length = 16 → (∀ y ∈ b, y < 256) →
    aesDec k (aesEnc k b) = b

/-- The 64 bytes of derived key material, as obtained by both `encrypt`
and `decrypt` in the source: `scrypt.hash(passphrase, salt, 16384, 8, 8)`
(resp. `scrypt.scrypt(..., 16384, 8, 8)` for the pylibscrypt backend),
i.e. cost parameters N = 16384, r = 8, p = 8. -/
def deriveKey (prims : Primitives) (passphrase salt : List Nat) : List Nat :=
  prims.scryptCore passphrase salt 16384 8 8

/-- Source `_encrypt_xor(a, b, cipher)`: XOR the value of the 32-hex-char
string `a` with the value of the 16 bytes `b`, re-serialize with
`'%0.32x'`/`unhexlify`, then encrypt the single 16-byte block. -/
def encryptXor (prims : Primitives) (a : Nat) (b : List Nat)
    (key : List Nat) : List Nat :=
  prims.aesEnc key (natToBytes 16 (a ^^^ bytesToNat b))

/-- Salt as computed by `encrypt` and re-derived by `decrypt`:
first 4 bytes of the double SHA-256 of the ASCII address bytes. -/
def addressSalt (prims : Primitives) (privkey : List Nat) : List Nat :=
  (prims.sha256 (prims.sha256 (prims.address privkey))).take 4

/-- The 39-byte binary payload assembled by `encrypt` before the
checksum is appended:
`b'\x01' + b'\x42' + b'\xc0' + salt + encrypted_half1 + encrypted_half2`. -/
def encryptPayload (prims : Primitives) (privkey passphrase : List Nat) :
    List Nat :=
  let salt := addressSalt prims privkey
  let key := deriveKey prims passphrase salt
  let derivedhalf1 := key.take 32
  let derivedhalf2 := key.drop 32
  let encryptedhalf1 :=
    encryptXor prims (bytesToNat (privkey.take 16)) (derivedhalf1.take 16)
      derivedhalf2
  let encryptedhalf2 :=
    encryptXor prims (bytesToNat (privkey.drop 16)) (derivedhalf1.drop 16)
      derivedhalf2
  [0x01, 0x42, 0xc0] ++ salt ++ encryptedhalf1 ++ encryptedhalf2

/-- Source `encrypt(privkey, passphrase)`: payload followed by the first
4 bytes of its double SHA-256 (the bytes subsequently hexlified and
wrapped in `Base58` by the external codec). -/
def encrypt (prims : Primitives) (privkey passphrase : List Nat) :
    List Nat :=
  let payload := encryptPayload prims privkey passphrase
  payload ++ (prims.sha256 (prims.sha256 payload)).take 4

/-- First encrypted half as assembled by `encrypt`:
`_encrypt_xor(privkeyhex[:32], derived_half1[:16], cipher)`. -/
def encryptedHalf1 (prims : Primitives) (privkey passphrase : List Nat) :
    List Nat :=
  let key := deriveKey prims passphrase (addressSalt prims privkey)
  encryptXor prims (bytesToNat (privkey.take 16)) ((key.take 32).take 16)
    (key.drop 32)

/-- Second encrypted half as assembled by `encrypt`:
`_encrypt_xor(privkeyhex[32:], derived_half1[16:], cipher)`. -/
def encryptedHalf2 (prims : Primitives) (privkey passphrase : List Nat) :
    List Nat :=
  let key := deriveKey prims passphrase (addressSalt prims privkey)
  encryptXor prims (bytesToNat (privkey.drop 16)) ((key.take 32).drop 16)
    (key.drop 32)

/-- Failure modes of `decrypt`: the `assert flagbyte == b'\xc0'`
(surfaced as a format error), the cipher backend's rejection of a
partial final block in `update`/`finalize`, and `SaltException`. -/
inductive DecryptError where
  | formatError
  | valueError
  | saltException
deriving DecidableEq

/-- Consecutive 16-byte chunks of a byte list (fuel-driven so that it
reduces by `rfl`/`decide`). -/
def chunks16Aux : Nat → List Nat → List (List Nat)
  | 0, _ => []
  | _, [] => []
  | fuel + 1, l => l.take 16 :: chunks16Aux fuel (l.drop 16)

/-- Consecutive 16-byte chunks of a byte list. -/
def chunks16 (l : List Nat) : List (List Nat) :=
  chunks16Aux l.length l

/-- Behaviour of `cipher.decryptor(); update(data) + finalize()` for the
chaining-free (ECB) cipher: each complete 16-byte block is transformed
independently; a trailing partial block makes `finalize` raise
`ValueError`. -/
def cipherUpdateFinalize (blockFn : List Nat → List Nat)
    (data : List Nat) : Except DecryptError (List Nat) :=
  if data.length % 16 = 0 then
    Except.ok ((chunks16 data).map blockFn).flatten
  else
    Except.error DecryptError.valueError

/-- Source `decrypt(encrypted_privkey, passphrase)`, acting on the byte
sequence recovered by `unhexlify(base58decode(...))` (the Base58/hex
framing is the identity on bytes).  Slicing follows the source exactly:
drop the two leading prefix bytes, check the flag byte, read the salt at
fixed offsets, strip the 4 trailing checksum bytes with `d[4:-4]`, AES-
decrypt each 16-byte half, XOR the 32-byte concatenation with
`derivedhalf1` (`'%064x'` re-serialization), and finally re-derive the
salt from the candidate key, raising `SaltException` on mismatch. -/
def decrypt (prims : Primitives) (input passphrase : List Nat) :
    Except DecryptError (List Nat) :=
  let d0 := input.drop 2
  let flagbyte := d0.take 1
  if flagbyte ≠ [0xc0] then Except.error DecryptError.formatError else
  let d1 := d0.drop 1
  let salt := d1.take 4
  let d2 := (d1.drop 4).take (d1.length - 8)
  let key := deriveKey prims passphrase salt
  let derivedhalf1 := key.take 32
  let derivedhalf2 := key.drop 32
  let encryptedhalf1 := d2.take 16
  let encryptedhalf2 := (d2.drop 16).take 16
  match cipherUpdateFinalize (prims.aesDec derivedhalf2) encryptedhalf2 with
  | Except.error e => Except.error e
  | Except.ok decryptedhalf2 =>
    match cipherUpdateFinalize (prims.aesDec derivedhalf2) encryptedhalf1 with
    | Except.error e => Except.error e
    | Except.ok decryptedhalf1 =>
      let privraw := decryptedhalf1 ++ decryptedhalf2
      let wif := natToBytes 32 (bytesToNat privraw ^^^ bytesToNat derivedhalf1)
      if (prims.sha256 (prims.sha256 (prims.address wif))).take 4 ≠ salt then
        Except.error DecryptError.saltException
      else
        Except.ok wif

/-- Modelled from the spec: the data-model sentence under test for C5
says the derived key material is produced "using fixed cost parameters
(CPU/memory cost factor = 16384, block size = 8, parallelization = 1)",
i.e. the scrypt backend invoked with p = 1 instead of the source's
p = 8. -/
def deriveKeySpecP1 (prims : Primitives) (passphrase salt : List Nat) :
    List Nat :=
  prims.scryptCore passphrase salt 16384 8 1

/-- Modelled from the spec: `encrypt` as it would behave if the derived
key material were produced with parallelization p = 1, for comparison
with the source's `encrypt`. -/
def encryptSpecP1 (prims : Primitives) (privkey passphrase : List Nat) :
    List Nat :=
  let salt := addressSalt prims privkey
  let key := deriveKeySpecP1 prims passphrase salt
  let derivedhalf1 := key.take 32
  let derivedhalf2 := key.drop 32
  let encryptedhalf1 :=
    encryptXor prims (bytesToNat (privkey.take 16)) (derivedhalf1.take 16)
      derivedhalf2
  let encryptedhalf2 :=
    encryptXor prims (bytesToNat (privkey.drop 16)) (derivedhalf1.drop 16)
      derivedhalf2
  let payload := [0x01, 0x42, 0xc0] ++ salt ++ encryptedhalf1 ++ encryptedhalf2
  payload ++ (prims.sha256 (prims.sha256 payload)).take 4

/-- Concrete cryptographic primitives satisfying every interface
contract, used to evaluate the development on closed inputs: a constant
hash, a scrypt backend whose output records the parallelization
parameter, a byte-normalizing block cipher, and the identity address
map. -/
def toyPrims : Primitives where
  sha256 := fun _ => List.replicate 32 0
  scryptCore := fun _ _ _ _ p => List.replicate 64 (p % 256)
  aesEnc := fun _ b => b.map (fun y => y % 256)
  aesDec := fun _ b => b.map (fun y => y % 256)
  address := fun k => k
  sha256_length := by intro x; simp
  scrypt_length := by intro pa s N r p; simp
  scrypt_bytes := by
    intro pa s N r p b hb
    rw [List.eq_of_mem_replicate hb]
    exact Nat.mod_lt _ (by norm_num)
  aesEnc_length := by intro k b h; simp [h]
  aesDec_length := by intro k b h; simp [h]
  aesDec_bytes := by
    intro k b y hy
    obtain ⟨z, _, rfl⟩ := List.mem_map.mp hy
    exact Nat.mod_lt _ (by norm_num)
  aes_inverse := by
    intro k b _ hbytes
    simp only [List.map_map]
    conv_rhs => rw [← List.map_id b]
    refine List.map_congr_left fun a ha => ?_
    have h := Nat.mod_eq_of_lt (hbytes a ha)
    simp [Function.comp, h]

/-- Decrypt-direction transform at 16-byte-half granularity: apply the
single-block cipher decryption first, then XOR with the derived-key
material (`decrypt` performs exactly these two steps, applying the XOR
to the 32-byte concatenation of the two decrypted halves at once, which
acts on each half independently). -/
def decryptXor (prims : Primitives) (c b key : List Nat) : List Nat :=
  natToBytes 16 (bytesToNat (prims.aesDec key c) ^^^ bytesToNat b)

/-- Intermediate `wif` value computed by `decrypt` when its input is
`encrypt prims K P1` and its passphrase is `P2`: both halves are AES-
decrypted with the key derived from `P2` and the salt embedded by
`encrypt` (which depends only on `K`), and the concatenation is XORed
with the first derived half. -/
def decryptCandidate (prims : Primitives) (K P1 P2 : List Nat) : List Nat :=
  natToBytes 32
    (bytesToNat
      (prims.aesDec ((deriveKey prims P2 (addressSalt prims K)).drop 32)
          (encryptedHalf1 prims K P1) ++
        prims.aesDec ((deriveKey prims P2 (addressSalt prims K)).drop 32)
          (encryptedHalf2 prims K P1)) ^^^
      bytesToNat ((deriveKey prims P2 (addressSalt prims K)).take 32))

/-- A second concrete set of primitives that agrees with `toyPrims`
everywhere except in what the scrypt backend returns for cost
parameters other than (16384, 8, 8). -/
def toyPrimsB : Primitives where
  sha256 := fun _ => List.replicate 32 0
  scryptCore := fun _ _ N _ p => List.replicate 64 ((p + N - 16384) % 256)
  aesEnc := fun _ b => b.map (fun y => y % 256)
  aesDec := fun _ b => b.map (fun y => y % 256)
  address := fun k => k
  sha256_length := by intro x; simp
  scrypt_length := by intro pa s N r p; simp
  scrypt_bytes := by
    intro pa s N r p b hb
    rw [List.eq_of_mem_replicate hb]
    exact Nat.mod_lt _ (by norm_num)
  aesEnc_length := by intro k b h; simp [h]
  aesDec_length := by intro k b h; simp [h]
  aesDec_bytes := by
    intro k b y hy
    obtain ⟨z, _, rfl⟩ := List.mem_map.mp hy
    exact Nat.mod_lt _ (by norm_num)
  aes_inverse := by
    intro k b _ hbytes
    simp only [List.map_map]
    conv_rhs => rw [← List.map_id b]
    refine List.map_congr_left fun a ha => ?_
    have h := Nat.mod_eq_of_lt (hbytes a ha)
    simp [Function.comp, h]

/-! ### Byte-arithmetic facts -/

theorem length_natToBytes (len n : Nat) : (natToBytes len n).length = len := by
  induction len generalizing n with
  | zero => rfl
  | succ m ih => simp [natToBytes, ih]

theorem natToBytes_bytes_lt (len n : Nat) :
    ∀ b ∈ natToBytes len n, b < 256 := by
  induction len generalizing n with
  | zero => intro b hb; simp [natToBytes] at hb
  | succ m ih =>
    intro b hb
    simp only [natToBytes, List.mem_append, List.mem_singleton] at hb
    rcases hb with hb | hb
    · exact ih _ b hb
    · subst hb; exact Nat.mod_lt _ (by norm_num)

theorem bytesToNat_foldl_init (l : List Nat) (init : Nat) :
    l.foldl (fun acc b => acc * 256 + b) init =
      init * 256 ^ l.length + bytesToNat l := by
  induction l generalizing init with
  | nil => simp [bytesToNat]
  | cons a t ih =>
    simp only [List.foldl_cons, List.length_cons, bytesToNat]
    rw [ih (init * 256 + a), ih (0 * 256 + a)]
    ring

theorem bytesToNat_append (l1 l2 : List Nat) :
    bytesToNat (l1 ++ l2) = bytesToNat l1 * 256 ^ l2.length + bytesToNat l2 := by
  unfold bytesToNat
  rw [List.foldl_append]
  exact bytesToNat_foldl_init l2 _

theorem bytesToNat_lt (l : List Nat) (h : ∀ b ∈ l, b < 256) :
    bytesToNat l < 256 ^ l.length := by
  induction l using List.reverseRecOn with
  | nil => simp [bytesToNat]
  | append_singleton t a ih =>
    have ht : bytesToNat t < 256 ^ t.length :=
      ih fun b hb => h b (List.mem_append_left _ hb)
    have ha : a < 256 := h a (List.mem_append_right _ (List.mem_singleton_self a))
    rw [bytesToNat_append]
    simp only [List.length_append, List.length_singleton, bytesToNat,
      List.foldl_cons, List.foldl_nil]
    calc bytesToNat t * 256 ^ 1 + (0 * 256 + a)
        < (bytesToNat t + 1) * 256 := by ring_nf; omega
    _ ≤ 256 ^ t.length * 256 := Nat.mul_le_mul_right _ ht
    _ = 256 ^ (t.length + 1) := by ring

theorem bytesToNat_natToBytes (len n : Nat) (h : n < 256 ^ len) :
    bytesToNat (natToBytes len n) = n := by
  induction len generalizing n with
  | zero =>
    have : n = 0 := by simpa using h
    simp [this, natToBytes, bytesToNat]
  | succ m ih =>
    have hdiv : n / 256 < 256 ^ m := by
      rw [Nat.div_lt_iff_lt_mul (by norm_num : (0:Nat) < 256)]
      calc n < 256 ^ (m + 1) := h
      _ = 256 ^ m * 256 := by ring
    simp only [natToBytes, bytesToNat_append, length_natToBytes, ih _ hdiv]
    simp only [bytesToNat, List.foldl_cons, List.foldl_nil, List.length_singleton]
    omega

theorem natToBytes_bytesToNat (l : List Nat) (h : ∀ b ∈ l, b < 256) :
    natToBytes l.length (bytesToNat l) = l := by
  induction l using List.reverseRecOn with
  | nil => rfl
  | append_singleton t a ih =>
    have ha : a < 256 := h a (List.mem_append_right _ (List.mem_singleton_self a))
    have hA : bytesToNat (t ++ [a]) = bytesToNat t * 256 + a := by
      rw [bytesToNat_append]
      simp [bytesToNat]
    have hlen : (t ++ [a]).length = t.length + 1 := by simp
    rw [hlen, hA]
    have hdiv : (bytesToNat t * 256 + a) / 256 = bytesToNat t := by omega
    have hmod : (bytesToNat t * 256 + a) % 256 = a := by omega
    simp only [natToBytes, hdiv, hmod]
    rw [ih fun b hb => h b (List.mem_append_left _ hb)]

theorem xor_mul_pow_add {i x2 b2 : Nat} (hx : x2 < 2 ^ i) (hb : b2 < 2 ^ i)
    (x1 b1 : Nat) :
    (2 ^ i * x1 + x2) ^^^ (2 ^ i * b1 + b2) =
      2 ^ i * (x1 ^^^ b1) + (x2 ^^^ b2) := by
  apply Nat.eq_of_testBit_eq
  intro j
  have hxb : x2 ^^^ b2 < 2 ^ i := Nat.xor_lt_two_pow hx hb
  simp only [Nat.testBit_xor, Nat.testBit_mul_pow_two_add _ hx,
    Nat.testBit_mul_pow_two_add _ hb, Nat.testBit_mul_pow_two_add _ hxb]
  by_cases hj : j < i <;> simp [hj]

/-! ### Block-cipher call and payload-shape facts -/

theorem chunks16Aux_nil (fuel : Nat) : chunks16Aux fuel [] = [] := by
  cases fuel <;> rfl

theorem chunks16_eq_single {l : List Nat} (h : l.length = 16) :
    chunks16 l = [l] := by
  cases l with
  | nil => simp at h
  | cons a t =>
    have h15 : t.length = 15 := by simpa using h
    have step : chunks16 (a :: t) =
        (a :: t).take 16 :: chunks16Aux t.length ((a :: t).drop 16) := rfl
    rw [step, List.take_of_length_le (by simp [h15]),
      List.drop_of_length_le (by simp [h15]), chunks16Aux_nil]

theorem cipherUpdateFinalize_block (f : List Nat → List Nat) {l : List Nat}
    (h : l.length = 16) : cipherUpdateFinalize f l = Except.ok (f l) := by
  unfold cipherUpdateFinalize
  rw [h, chunks16_eq_single h]
  simp

theorem length_addressSalt (prims : Primitives) (K : List Nat) :
    (addressSalt prims K).length = 4 := by
  simp [addressSalt, prims.sha256_length]

theorem length_encryptedHalf1 (prims : Primitives) (K P : List Nat) :
    (encryptedHalf1 prims K P).length = 16 := by
  simp only [encryptedHalf1, encryptXor]
  exact prims.aesEnc_length _ _ (length_natToBytes _ _)

theorem length_encryptedHalf2 (prims : Primitives) (K P : List Nat) :
    (encryptedHalf2 prims K P).length = 16 := by
  simp only [encryptedHalf2, encryptXor]
  exact prims.aesEnc_length _ _ (length_natToBytes _ _)

theorem encryptPayload_parts (prims : Primitives) (K P : List Nat) :
    encryptPayload prims K P =
      [0x01, 0x42, 0xc0] ++ addressSalt prims K ++ encryptedHalf1 prims K P ++
        encryptedHalf2 prims K P := rfl

theorem encrypt_parts (prims : Primitives) (K P : List Nat) :
    encrypt prims K P = encryptPayload prims K P ++
      (prims.sha256 (prims.sha256 (encryptPayload prims K P))).take 4 := rfl

/-- Evaluation of `decrypt` on any byte sequence with the well-formed
shape: two arbitrary head bytes, the 0xC0 flag, a 4-byte salt, two
16-byte halves, a 4-byte checksum, and arbitrary trailing bytes.  This
single lemma does all the offset bookkeeping of the decode path. -/
theorem decrypt_parts (prims : Primitives) (v1 v2 : Nat)
    (salt eh1 eh2 cks extra P : List Nat)
    (hsalt : salt.length = 4) (heh1 : eh1.length = 16)
    (heh2 : eh2.length = 16) (hcks : cks.length = 4) :
    decrypt prims (v1 :: v2 :: 0xc0 :: (salt ++ eh1 ++ eh2 ++ cks ++ extra)) P =
      (if (prims.sha256 (prims.sha256 (prims.address (natToBytes 32
            (bytesToNat (prims.aesDec ((deriveKey prims P salt).drop 32) eh1 ++
                prims.aesDec ((deriveKey prims P salt).drop 32) eh2) ^^^
              bytesToNat ((deriveKey prims P salt).take 32)))))).take 4 ≠ salt
       then Except.error DecryptError.saltException
       else Except.ok (natToBytes 32
         (bytesToNat (prims.aesDec ((deriveKey prims P salt).drop 32) eh1 ++
             prims.aesDec ((deriveKey prims P salt).drop 32) eh2) ^^^
           bytesToNat ((deriveKey prims P salt).take 32)))) := by
  have hdrop2 : ∀ (x y : Nat) (l : List Nat), (x :: y :: l).drop 2 = l :=
    fun _ _ _ => rfl
  have htake1 : ∀ (x : Nat) (l : List Nat), (x :: l).take 1 = [x] :=
    fun _ _ => rfl
  have hdrop1 : ∀ (x : Nat) (l : List Nat), (x :: l).drop 1 = l :=
    fun _ _ => rfl
  have hT4 : (salt ++ (eh1 ++ (eh2 ++ (cks ++ extra)))).take 4 = salt :=
    List.take_left' hsalt
  have hTd : (salt ++ (eh1 ++ (eh2 ++ (cks ++ extra)))).drop 4 =
      eh1 ++ (eh2 ++ (cks ++ extra)) := List.drop_left' hsalt
  have hTlen : (salt ++ (eh1 ++ (eh2 ++ (cks ++ extra)))).length - 8 =
      32 + extra.length := by
    simp only [List.length_append, hsalt, heh1, heh2, hcks]
    omega
  have hd2 : (eh1 ++ (eh2 ++ (cks ++ extra))).take (32 + extra.length) =
      eh1 ++ (eh2 ++ (cks ++ extra).take extra.length) := by
    rw [List.take_append_eq_append_take,
      List.take_of_length_le (by omega : eh1.length ≤ 32 + extra.length), heh1,
      List.take_append_eq_append_take,
      List.take_of_length_le (by omega : eh2.length ≤ 32 + extra.length - 16),
      heh2]
    rw [show 32 + extra.length - 16 - 16 = extra.length from by omega]
  have he1 : (eh1 ++ (eh2 ++ (cks ++ extra).take extra.length)).take 16 = eh1 :=
    List.take_left' heh1
  have he2 : ((eh1 ++ (eh2 ++ (cks ++ extra).take extra.length)).drop 16).take 16
      = eh2 := by
    rw [List.drop_left' heh1, List.take_left' heh2]
  simp only [decrypt, List.append_assoc, hdrop2, htake1, hdrop1, hT4, hTd,
    hTlen, hd2, he1, he2, ne_eq, not_true_eq_false, if_false,
    cipherUpdateFinalize_block _ heh1, cipherUpdateFinalize_block _ heh2]

theorem length_checksum (prims : Primitives) (K P : List Nat) :
    ((prims.sha256 (prims.sha256 (encryptPayload prims K P))).take 4).length
      = 4 := by
  simp [prims.sha256_length]

/-- Round trip through the transform pipeline, with arbitrary bytes
appended after the checksum (the decode path never inspects them). -/
theorem decrypt_encrypt_extra (prims : Primitives) (K P extra : List Nat)
    (hlen : K.length = 32) (hK : ∀ b ∈ K, b < 256) :
    decrypt prims (encrypt prims K P ++ extra) P = Except.ok K := by
  have h2pow : (256 : Nat) ^ 16 = 2 ^ 128 := by norm_num
  have hkeylen : (deriveKey prims P (addressSalt prims K)).length = 64 :=
    prims.scrypt_length _ _ _ _ _
  have hshape : encrypt prims K P ++ extra =
      1 :: 0x42 :: 0xc0 :: (addressSalt prims K ++ encryptedHalf1 prims K P ++
        encryptedHalf2 prims K P ++
        (prims.sha256 (prims.sha256 (encryptPayload prims K P))).take 4 ++
        extra) := by
    rw [encrypt_parts, encryptPayload_parts]
    simp [List.append_assoc]
  rw [hshape, decrypt_parts prims 1 0x42 _ _ _ _ _ P
    (length_addressSalt prims K) (length_encryptedHalf1 prims K P)
    (length_encryptedHalf2 prims K P) (length_checksum prims K P)]
  have hdec1 : prims.aesDec ((deriveKey prims P (addressSalt prims K)).drop 32)
      (encryptedHalf1 prims K P) =
      natToBytes 16 (bytesToNat (K.take 16) ^^^
        bytesToNat (((deriveKey prims P (addressSalt prims K)).take 32).take 16))
      := by
    simp only [encryptedHalf1, encryptXor]
    exact prims.aes_inverse _ _ (length_natToBytes _ _) (natToBytes_bytes_lt _ _)
  have hdec2 : prims.aesDec ((deriveKey prims P (addressSalt prims K)).drop 32)
      (encryptedHalf2 prims K P) =
      natToBytes 16 (bytesToNat (K.drop 16) ^^^
        bytesToNat (((deriveKey prims P (addressSalt prims K)).take 32).drop 16))
      := by
    simp only [encryptedHalf2, encryptXor]
    exact prims.aes_inverse _ _ (length_natToBytes _ _) (natToBytes_bytes_lt _ _)
  rw [hdec1, hdec2]
  have ha1 : bytesToNat (K.take 16) < 2 ^ 128 := by
    rw [← h2pow]
    have := bytesToNat_lt (K.take 16) fun b hb => hK b (List.mem_of_mem_take hb)
    simpa [hlen] using this
  have ha2 : bytesToNat (K.drop 16) < 2 ^ 128 := by
    rw [← h2pow]
    have := bytesToNat_lt (K.drop 16) fun b hb => hK b (List.mem_of_mem_drop hb)
    simpa [hlen] using this
  have hd1bytes : ∀ b ∈ (deriveKey prims P (addressSalt prims K)).take 32,
      b < 256 := fun b hb =>
    prims.scrypt_bytes _ _ _ _ _ b (List.mem_of_mem_take hb)
  have hb1 : bytesToNat (((deriveKey prims P (addressSalt prims K)).take 32).take 16)
      < 2 ^ 128 := by
    rw [← h2pow]
    have := bytesToNat_lt
      (((deriveKey prims P (addressSalt prims K)).take 32).take 16)
      fun b hb => hd1bytes b (List.mem_of_mem_take hb)
    simpa [hkeylen] using this
  have hb2 : bytesToNat (((deriveKey prims P (addressSalt prims K)).take 32).drop 16)
      < 2 ^ 128 := by
    rw [← h2pow]
    have := bytesToNat_lt
      (((deriveKey prims P (addressSalt prims K)).take 32).drop 16)
      fun b hb => hd1bytes b (List.mem_of_mem_drop hb)
    simpa [hkeylen] using this
  have hx1 : bytesToNat (K.take 16) ^^^
      bytesToNat (((deriveKey prims P (addressSalt prims K)).take 32).take 16)
      < 2 ^ 128 := Nat.xor_lt_two_pow ha1 hb1
  have hx2 : bytesToNat (K.drop 16) ^^^
      bytesToNat (((deriveKey prims P (addressSalt prims K)).take 32).drop 16)
      < 2 ^ 128 := Nat.xor_lt_two_pow ha2 hb2
  have hcat : bytesToNat (natToBytes 16 (bytesToNat (K.take 16) ^^^
        bytesToNat (((deriveKey prims P (addressSalt prims K)).take 32).take 16)) ++
      natToBytes 16 (bytesToNat (K.drop 16) ^^^
        bytesToNat (((deriveKey prims P (addressSalt prims K)).take 32).drop 16)))
      = 2 ^ 128 *
        (bytesToNat (K.take 16) ^^^
          bytesToNat (((deriveKey prims P (addressSalt prims K)).take 32).take 16)) +
        (bytesToNat (K.drop 16) ^^^
          bytesToNat (((deriveKey prims P (addressSalt prims K)).take 32).drop 16))
      := by
    rw [bytesToNat_append, length_natToBytes,
      bytesToNat_natToBytes _ _ (h2pow ▸ hx1),
      bytesToNat_natToBytes _ _ (h2pow ▸ hx2), h2pow, Nat.mul_comm]
  have hsplitD : bytesToNat ((deriveKey prims P (addressSalt prims K)).take 32) =
      2 ^ 128 *
        bytesToNat (((deriveKey prims P (addressSalt prims K)).take 32).take 16) +
        bytesToNat (((deriveKey prims P (addressSalt prims K)).take 32).drop 16)
      := by
    conv_lhs =>
      rw [← List.take_append_drop 16
        ((deriveKey prims P (addressSalt prims K)).take 32)]
    rw [bytesToNat_append]
    have hdl : (((deriveKey prims P (addressSalt prims K)).take 32).drop 16).length
        = 16 := by simp [hkeylen]
    rw [hdl, h2pow, Nat.mul_comm]
  have hsplitK : bytesToNat K =
      2 ^ 128 * bytesToNat (K.take 16) + bytesToNat (K.drop 16) := by
    conv_lhs => rw [← List.take_append_drop 16 K]
    rw [bytesToNat_append]
    have hdl : (K.drop 16).length = 16 := by simp [hlen]
    rw [hdl, h2pow, Nat.mul_comm]
  have hW : natToBytes 32
      (bytesToNat (natToBytes 16 (bytesToNat (K.take 16) ^^^
          bytesToNat (((deriveKey prims P (addressSalt prims K)).take 32).take 16)) ++
        natToBytes 16 (bytesToNat (K.drop 16) ^^^
          bytesToNat (((deriveKey prims P (addressSalt prims K)).take 32).drop 16)))
        ^^^ bytesToNat ((deriveKey prims P (addressSalt prims K)).take 32)) = K
      := by
    rw [hcat, hsplitD, xor_mul_pow_add hx2 hb2, Nat.xor_cancel_right,
      Nat.xor_cancel_right, ← hsplitK, ← hlen]
    exact natToBytes_bytesToNat K hK
  rw [hW]
  simp [addressSalt]

/-! ### Payload slice facts -/

theorem payload_length (prims : Primitives) (K P : List Nat) :
    (encryptPayload prims K P).length = 39 := by
  rw [encryptPayload_parts]
  simp [length_addressSalt, length_encryptedHalf1, length_encryptedHalf2]

theorem payload_take3 (prims : Primitives) (K P : List Nat) :
    (encryptPayload prims K P).take 3 = [0x01, 0x42, 0xc0] := by
  rw [encryptPayload_parts, List.append_assoc, List.append_assoc,
    List.take_append_of_le_length (by simp), List.take_of_length_le (by simp)]

theorem payload_salt_slice (prims : Primitives) (K P : List Nat) :
    ((encryptPayload prims K P).drop 3).take 4 = addressSalt prims K := by
  rw [encryptPayload_parts, List.append_assoc, List.append_assoc,
    List.drop_left' (by simp : ([0x01, 0x42, 0xc0] : List Nat).length = 3),
    List.take_left' (length_addressSalt prims K)]

theorem payload_eh1_slice (prims : Primitives) (K P : List Nat) :
    ((encryptPayload prims K P).drop 7).take 16 = encryptedHalf1 prims K P := by
  rw [encryptPayload_parts,
    List.append_assoc ([0x01, 0x42, 0xc0] ++ addressSalt prims K),
    List.drop_left' (by simp [length_addressSalt] :
      ([0x01, 0x42, 0xc0] ++ addressSalt prims K).length = 7),
    List.take_left' (length_encryptedHalf1 prims K P)]

theorem payload_eh2_slice (prims : Primitives) (K P : List Nat) :
    ((encryptPayload prims K P).drop 23).take 16 = encryptedHalf2 prims K P := by
  rw [encryptPayload_parts,
    List.drop_left' (by simp [length_addressSalt, length_encryptedHalf1] :
      ([0x01, 0x42, 0xc0] ++ addressSalt prims K ++
        encryptedHalf1 prims K P).length = 23),
    List.take_of_length_le (le_of_eq (length_encryptedHalf2 prims K P))]

theorem encrypt_salt_slice (prims : Primitives) (K P : List Nat) :
    ((encrypt prims K P).drop 3).take 4 = addressSalt prims K := by
  rw [encrypt_parts,
    List.drop_append_of_le_length (by rw [payload_length]; omega),
    List.take_append_of_le_length
      (by simp [payload_length] : 4 ≤ ((encryptPayload prims K P).drop 3).length),
    payload_salt_slice]

/-- Everything `decrypt` does after the two prefix bytes depends only on
the 37 bytes at offsets 2 through 38 of a 43-byte input: the 4 trailing
checksum bytes are sliced away by `d[4:-4]` and never inspected. -/
theorem decrypt_frame_free (prims : Primitives) (P core cc : List Nat)
    (v1 v2 : Nat) (hcore : core.length = 37) (hc : cc.length = 4) :
    decrypt prims (v1 :: v2 :: (core ++ cc)) P =
      decrypt prims (0 :: 0 :: (core ++ List.replicate 4 0)) P := by
  have hdrop2 : ∀ (x y : Nat) (l : List Nat), (x :: y :: l).drop 2 = l :=
    fun _ _ _ => rfl
  have step : ∀ (dd : List Nat), dd.length = 4 →
      ((core ++ dd).take 1 = core.take 1 ∧
        (core ++ dd).drop 1 = core.drop 1 ++ dd) ∧
      ((core.drop 1 ++ dd).take 4 = (core.drop 1).take 4 ∧
        (core.drop 1 ++ dd).length - 8 = 32) ∧
      ((core.drop 1 ++ dd).drop 4).take 32 = core.drop 5 := by
    intro dd hdd
    refine ⟨⟨?_, ?_⟩, ⟨?_, ?_⟩, ?_⟩
    · exact List.take_append_of_le_length (by omega)
    · exact List.drop_append_of_le_length (by omega)
    · exact List.take_append_of_le_length (by simp [hcore])
    · simp [hcore, hdd]
    · rw [List.drop_append_of_le_length (by simp [hcore]), List.drop_drop,
        List.take_append_of_le_length (by simp [hcore]),
        List.take_of_length_le (by simp [hcore])]
  obtain ⟨⟨l1, l2⟩, ⟨l3, l4⟩, l5⟩ := step cc hc
  obtain ⟨⟨r1, r2⟩, ⟨r3, r4⟩, r5⟩ := step (List.replicate 4 0) (by simp)
  simp only [decrypt, hdrop2, l1, l2, l3, l4, l5, r1, r2, r3, r4, r5]

/-- Full evaluation of `decrypt` on the output of `encrypt`, for an
arbitrary (possibly different) decryption passphrase: the result is
`SaltException` or the candidate key, decided exactly by whether the
salt re-derived from the candidate matches the embedded salt. -/
theorem decrypt_encrypt_eval (prims : Primitives) (K P1 P2 : List Nat) :
    decrypt prims (encrypt prims K P1) P2 =
      if addressSalt prims (decryptCandidate prims K P1 P2) ≠
          addressSalt prims K
      then Except.error DecryptError.saltException
      else Except.ok (decryptCandidate prims K P1 P2) := by
  have hshape : encrypt prims K P1 = 1 :: 0x42 :: 0xc0 ::
      (addressSalt prims K ++ encryptedHalf1 prims K P1 ++
        encryptedHalf2 prims K P1 ++
        (prims.sha256 (prims.sha256 (encryptPayload prims K P1))).take 4 ++
        ([] : List Nat)) := by
    rw [encrypt_parts, encryptPayload_parts]
    simp [List.append_assoc]
  rw [hshape, decrypt_parts prims 1 0x42 _ _ _ _ _ P2
    (length_addressSalt prims K) (length_encryptedHalf1 prims K P1)
    (length_encryptedHalf2 prims K P1) (length_checksum prims K P1)]
  rfl

/-! ### Claims -/

/-- C1: for every valid 32-byte private key K and non-empty passphrase P,
decrypting the encryption of K under P with the same passphrase P
returns the original key K. -/
theorem claim_C1_roundtrip (prims : Primitives) (K P : List Nat)
    (hlen : K.length = 32) (hK : ∀ b ∈ K, b < 256) (hP : P ≠ []) :
    decrypt prims (encrypt prims K P) P = Except.ok K := by
  have h := decrypt_encrypt_extra prims K P [] hlen hK
  simpa using h

theorem claim_C1_roundtrip_witness :
    (List.range 32).length = 32 ∧ (∀ b ∈ List.range 32, b < 256) ∧
    ([5] : List Nat) ≠ [] ∧
    decrypt toyPrims (encrypt toyPrims (List.range 32) [5]) [5] =
      Except.ok (List.range 32) :=
  ⟨by decide, by decide, by decide,
    claim_C1_roundtrip toyPrims (List.range 32) [5] (by decide) (by decide)
      (by decide)⟩

set_option maxRecDepth 100000 in
/-- C2 (counterexample): with conforming primitives whose key-derivation
output does not depend on the passphrase, decrypting under a different
passphrase succeeds and returns the key, so distinct passphrases alone
do not force a `SaltException`. -/
theorem claim_C2_counterexample :
    ([0] : List Nat) ≠ [1] ∧
    decrypt toyPrims (encrypt toyPrims (List.range 32) [0]) [1] =
      Except.ok (List.range 32) :=
  ⟨by decide, by rfl⟩

/-- C2 (amended): decrypting `encrypt prims K P1` under a different
passphrase P2 either fails with `SaltException` — in which case no
candidate key is returned — or returns a candidate key whose re-derived
salt equals the salt embedded for K; the salt comparison, not passphrase
distinctness itself, decides the outcome. -/
theorem claim_C2_salt_check (prims : Primitives) (K P1 P2 : List Nat)
    (hlen : K.length = 32) (hK : ∀ b ∈ K, b < 256) (hne : P1 ≠ P2) :
    (decrypt prims (encrypt prims K P1) P2 =
        Except.error DecryptError.saltException ∧
      ∀ K', decrypt prims (encrypt prims K P1) P2 ≠ Except.ok K') ∨
    (∃ K', decrypt prims (encrypt prims K P1) P2 = Except.ok K' ∧
      addressSalt prims K' = addressSalt prims K) := by
  rw [decrypt_encrypt_eval]
  by_cases h : addressSalt prims (decryptCandidate prims K P1 P2) =
      addressSalt prims K
  · right
    refine ⟨decryptCandidate prims K P1 P2, ?_, h⟩
    rw [if_neg (by simp [h])]
  · left
    constructor
    · rw [if_pos h]
    · intro K' hc
      rw [if_pos h] at hc
      exact Except.noConfusion hc

theorem claim_C2_salt_check_witness :
    (List.range 32).length = 32 ∧ (∀ b ∈ List.range 32, b < 256) ∧
    ([0] : List Nat) ≠ [1] ∧
    ((decrypt toyPrims (encrypt toyPrims (List.range 32) [0]) [1] =
        Except.error DecryptError.saltException ∧
      ∀ K', decrypt toyPrims (encrypt toyPrims (List.range 32) [0]) [1] ≠
        Except.ok K') ∨
     (∃ K', decrypt toyPrims (encrypt toyPrims (List.range 32) [0]) [1] =
        Except.ok K' ∧
        addressSalt toyPrims K' = addressSalt toyPrims (List.range 32))) :=
  ⟨by decide, by decide, by decide,
    claim_C2_salt_check toyPrims (List.range 32) [0] [1] (by decide)
      (by decide) (by decide)⟩

/-- C3: any input whose byte at offset 2 (the flag byte, after the two
prefix bytes) differs from 0xC0 makes `decrypt` fail with the format
error, for every passphrase and before any key derivation or
decryption work. -/
theorem claim_C3_flag_rejected (prims : Primitives) (v1 v2 b : Nat)
    (rest P : List Nat) (hb : b ≠ 0xc0) :
    decrypt prims (v1 :: v2 :: b :: rest) P =
      Except.error DecryptError.formatError := by
  have hd : (v1 :: v2 :: b :: rest).drop 2 = b :: rest := rfl
  have ht : (b :: rest).take 1 = [b] := rfl
  simp only [decrypt, hd, ht]
  rw [if_pos (by simp [hb] : ([b] : List Nat) ≠ [0xc0])]

theorem claim_C3_flag_rejected_witness :
    (0 : Nat) ≠ 0xc0 ∧
    decrypt toyPrims (1 :: 0x42 :: 0 :: List.replicate 40 0) [5] =
      Except.error DecryptError.formatError :=
  ⟨by decide,
    claim_C3_flag_rejected toyPrims 1 0x42 0 (List.replicate 40 0) [5]
      (by decide)⟩

/-- C4: the encrypt direction XORs the 16-byte half with the derived
material first and block-encrypts the result, while the decrypt
direction block-decrypts first and XORs afterwards, and the two compose
to the identity on every 16-byte half. -/
theorem claim_C4_transform_inverse (prims : Primitives) (key xm x : List Nat)
    (hx : x.length = 16) (hxb : ∀ b ∈ x, b < 256)
    (hm : xm.length = 16) (hmb : ∀ b ∈ xm, b < 256) :
    decryptXor prims (encryptXor prims (bytesToNat x) xm key) xm key = x := by
  have h2pow : (256 : Nat) ^ 16 = 2 ^ 128 := by norm_num
  unfold decryptXor encryptXor
  rw [prims.aes_inverse _ _ (length_natToBytes _ _) (natToBytes_bytes_lt _ _)]
  have hxlt : bytesToNat x < 2 ^ 128 := by
    rw [← h2pow]
    have := bytesToNat_lt x hxb
    simpa [hx] using this
  have hmlt : bytesToNat xm < 2 ^ 128 := by
    rw [← h2pow]
    have := bytesToNat_lt xm hmb
    simpa [hm] using this
  rw [bytesToNat_natToBytes 16 _ (h2pow ▸ Nat.xor_lt_two_pow hxlt hmlt),
    Nat.xor_cancel_right]
  have h := natToBytes_bytesToNat x hxb
  rw [hx] at h
  exact h

theorem claim_C4_transform_inverse_witness :
    (List.range 16).length = 16 ∧ (∀ b ∈ List.range 16, b < 256) ∧
    (List.replicate 16 7).length = 16 ∧
    (∀ b ∈ List.replicate 16 7, b < 256) ∧
    decryptXor toyPrims
      (encryptXor toyPrims (bytesToNat (List.range 16)) (List.replicate 16 7)
        [])
      (List.replicate 16 7) [] = List.range 16 :=
  ⟨by decide, by decide, by decide, by decide,
    claim_C4_transform_inverse toyPrims [] (List.replicate 16 7)
      (List.range 16) (by decide) (by decide) (by decide) (by decide)⟩

/-- C5 (counterexample): the derived key material actually used is the
scrypt output for parallelization p = 8, not the p = 1 output the claim
states; with primitives whose backend distinguishes the parameter, both
the derived material and the encryption output differ from the claimed
parallelization-1 versions. -/
theorem claim_C5_counterexample :
    deriveKey toyPrims [7] [0, 0, 0, 0] ≠
      deriveKeySpecP1 toyPrims [7] [0, 0, 0, 0] ∧
    encrypt toyPrims (List.range 32) [7] ≠
      encryptSpecP1 toyPrims (List.range 32) [7] := by
  constructor
  · decide
  · decide

/-- C5 (amended): every key-derivation call made by `encrypt` and
`decrypt` uses the fixed cost parameters N = 16384, r = 8, p = 8:
two primitive sets that agree on the scrypt backend at exactly those
parameters (and on the other collaborators) produce identical `encrypt`
and `decrypt` behaviour on all inputs. -/
theorem claim_C5_fixed_params (p q : Primitives)
    (hsha : p.sha256 = q.sha256) (henc : p.aesEnc = q.aesEnc)
    (hdec : p.aesDec = q.aesDec) (haddr : p.address = q.address)
    (hscrypt : ∀ pa s, p.scryptCore pa s 16384 8 8 =
      q.scryptCore pa s 16384 8 8) :
    (∀ K P, encrypt p K P = encrypt q K P) ∧
    (∀ input P, decrypt p input P = decrypt q input P) := by
  constructor
  · intro K P
    simp only [encrypt, encryptPayload, addressSalt, deriveKey, encryptXor,
      hsha, haddr, henc, hscrypt]
  · intro input P
    simp only [decrypt, cipherUpdateFinalize, deriveKey, addressSalt,
      hsha, haddr, hdec, hscrypt]

theorem claim_C5_fixed_params_witness :
    encrypt toyPrims (List.range 32) [3] =
      encrypt toyPrimsB (List.range 32) [3] :=
  (claim_C5_fixed_params toyPrims toyPrimsB rfl rfl rfl rfl
    (fun _ _ => rfl)).1 (List.range 32) [3]

/-- C6 (counterexample): the payload assembled by `encrypt` before the
checksum is appended has 39 bytes, not the 43 the claim states (43 is
its length after the 4 checksum bytes are appended). -/
theorem claim_C6_counterexample :
    (encryptPayload toyPrims (List.range 32) [5]).length ≠ 43 := by
  decide

/-- C6 (amended): the payload assembled by `encrypt` before checksum
framing is 39 bytes: version prefix 0x01 at offset 0, type prefix 0x42
at offset 1, flag byte 0xC0 at offset 2, the 4-byte salt at offsets
3–6, encryptedHalf1 at offsets 7–22 and encryptedHalf2 at offsets
23–38, in that fixed order. -/
theorem claim_C6_payload_layout (prims : Primitives) (K P : List Nat) :
    (encryptPayload prims K P).length = 39 ∧
    (encryptPayload prims K P).take 3 = [0x01, 0x42, 0xc0] ∧
    ((encryptPayload prims K P).drop 3).take 4 = addressSalt prims K ∧
    ((encryptPayload prims K P).drop 7).take 16 = encryptedHalf1 prims K P ∧
    ((encryptPayload prims K P).drop 23).take 16 = encryptedHalf2 prims K P :=
  ⟨payload_length prims K P, payload_take3 prims K P,
    payload_salt_slice prims K P, payload_eh1_slice prims K P,
    payload_eh2_slice prims K P⟩

set_option maxRecDepth 100000 in
/-- C7 (counterexample): an input one byte longer than the expected
fixed size is not rejected: `decrypt` ignores the extra trailing byte
and succeeds, so a wrong-length input does not fail with a format
error. -/
theorem claim_C7_counterexample :
    ((encrypt toyPrims (List.range 32) [7] ++ [0]).drop 2).length ≠ 41 ∧
    decrypt toyPrims (encrypt toyPrims (List.range 32) [7] ++ [0]) [7] =
      Except.ok (List.range 32) :=
  ⟨by decide, by rfl⟩

/-- C7 (amended): `decrypt` performs no length validation — it parses
by fixed offsets and slices the checksum region relative to the end, so
appending arbitrary extra bytes to a well-formed input still decrypts
successfully to the original key; only the flag byte is checked during
decoding. -/
theorem claim_C7_extra_bytes_accepted (prims : Primitives)
    (K P extra : List Nat) (hlen : K.length = 32)
    (hK : ∀ b ∈ K, b < 256) :
    decrypt prims (encrypt prims K P ++ extra) P = Except.ok K :=
  decrypt_encrypt_extra prims K P extra hlen hK

theorem claim_C7_extra_bytes_accepted_witness :
    (List.range 32).length = 32 ∧ (∀ b ∈ List.range 32, b < 256) ∧
    decrypt toyPrims (encrypt toyPrims (List.range 32) [7] ++ [0, 0, 0]) [7]
      = Except.ok (List.range 32) :=
  ⟨by decide, by decide,
    claim_C7_extra_bytes_accepted toyPrims (List.range 32) [7] [0, 0, 0]
      (by decide) (by decide)⟩

/-- C8: on 43-byte inputs, the outcome of `decrypt` depends only on the
bytes at offsets 2 through 38 (flag, salt and the two encrypted
halves): two inputs agreeing there but differing in the two leading
prefix bytes and the 4 trailing checksum bytes decrypt identically —
the outer checksum is never re-verified. -/
theorem claim_C8_frame_irrelevant (prims : Primitives)
    (P core c1 c2 : List Nat) (v1 v2 w1 w2 : Nat)
    (hcore : core.length = 37) (hc1 : c1.length = 4) (hc2 : c2.length = 4) :
    decrypt prims (v1 :: v2 :: (core ++ c1)) P =
      decrypt prims (w1 :: w2 :: (core ++ c2)) P := by
  rw [decrypt_frame_free prims P core c1 v1 v2 hcore hc1,
    decrypt_frame_free prims P core c2 w1 w2 hcore hc2]

theorem claim_C8_frame_irrelevant_witness :
    (0xc0 :: List.replicate 36 1).length = 37 ∧
    (List.replicate 4 0 : List Nat).length = 4 ∧
    (List.replicate 4 5 : List Nat).length = 4 ∧
    decrypt toyPrims (1 :: 0x42 ::
        ((0xc0 :: List.replicate 36 1) ++ List.replicate 4 0)) [2] =
      decrypt toyPrims (9 :: 9 ::
        ((0xc0 :: List.replicate 36 1) ++ List.replicate 4 5)) [2] :=
  ⟨by decide, by decide, by decide,
    claim_C8_frame_irrelevant toyPrims [2] (0xc0 :: List.replicate 36 1)
      (List.replicate 4 0) (List.replicate 4 5) 1 0x42 9 9 (by decide)
      (by decide) (by decide)⟩

/-- C9: `encrypt` is deterministic — it is a pure function of the key
and passphrase with no nonce, IV or randomness — and the 4-byte salt it
embeds at offsets 3–6 is derived solely from the address of the key as
the first 4 bytes of the double SHA-256 of its ASCII bytes, so it is
the same for every passphrase. -/
theorem claim_C9_deterministic_salt (prims : Primitives) (K P Q : List Nat) :
    ((encrypt prims K P).drop 3).take 4 =
      (prims.sha256 (prims.sha256 (prims.address K))).take 4 ∧
    ((encrypt prims K P).drop 3).take 4 =
      ((encrypt prims K Q).drop 3).take 4 :=
  ⟨encrypt_salt_slice prims K P,
    (encrypt_salt_slice prims K P).trans (encrypt_salt_slice prims K Q).symm⟩

/-- C10: the empty passphrase is accepted by both `encrypt` and
`decrypt` (key derivation is called on it like on any other byte
sequence), and the round trip returns the original key. -/
theorem claim_C10_empty_passphrase_roundtrip (prims : Primitives)
    (K : List Nat) (hlen : K.length = 32) (hK : ∀ b ∈ K, b < 256) :
    decrypt prims (encrypt prims K []) [] = Except.ok K := by
  have h := decrypt_encrypt_extra prims K [] [] hlen hK
  simpa using h

theorem claim_C10_empty_passphrase_roundtrip_witness :
    (List.range 32).length = 32 ∧ (∀ b ∈ List.range 32, b < 256) ∧
    decrypt toyPrims (encrypt toyPrims (List.range 32) []) [] =
      Except.ok (List.range 32) :=
  ⟨by decide, by decide,
    claim_C10_empty_passphrase_roundtrip toyPrims (List.range 32)
      (by decide) (by decide)⟩

end Bip38
